import Mathlib

set_option maxRecDepth 100000

/-!
Verification of the chunking/extraction engine in `src/chunking.py`
(`IntelligentChunker.chunk_text`, `IntelligentChunker._process_section`,
`IntelligentChunker._smart_split`, `extract_code_blocks`).

Strings are embedded as `List Char`; Python string primitives (`strip`,
`rfind`, `find`, `split`, `startswith`, slicing) are modelled below over
that representation.  Python `int` sizes are embedded as `Nat`; every
claim considered here quantifies only over positive chunk sizes.  The
`while` loop of `_smart_split` is embedded with explicit fuel: a `none`
result models a non-terminating run of the Python loop.
-/

namespace Chunking

/-- Whitespace characters stripped by Python's `str.strip()` and matched by
the regex class `\s` (ASCII range, which covers all inputs considered). -/
def isPySpace (c : Char) : Bool :=
  c = ' ' || c = '\t' || c = '\n' || c = '\r' || c = Char.ofNat 11 || c = Char.ofNat 12

/-- Python `s.strip()`: drop leading and trailing whitespace. -/
def stripL (s : List Char) : List Char :=
  ((s.dropWhile isPySpace).reverse.dropWhile isPySpace).reverse

/-- Python `s.split('\n')`: split on every newline, keeping empty pieces. -/
def splitNL (s : List Char) : List (List Char) :=
  match s with
  | [] => [[]]
  | c :: rest =>
    if c = '\n' then [] :: splitNL rest
    else
      match splitNL rest with
      | [] => [[c]]
      | g :: gs => (c :: g) :: gs

/-- Python `'\n'.join(ls)`. -/
def joinNL (ls : List (List Char)) : List Char :=
  List.intercalate ['\n'] ls

/-- Does `pat` occur in `s` at position `i`?  (Python `s[i:i+len(pat)] == pat`.) -/
def matchAt (s pat : List Char) (i : Nat) : Bool :=
  pat.isPrefixOf (s.drop i)

/-- All positions `≥ b` (relative to the original string) at which `pat`
occurs in the suffix `l`; used to model Python `find`/`rfind` for the
non-empty patterns the source searches for. -/
def occAux (pat : List Char) : List Char → Nat → List Nat
  | [], _ => []
  | l@(_ :: rest), i => (if pat.isPrefixOf l then [i] else []) ++ occAux pat rest (i + 1)

/-- All occurrence positions of `pat` in `s`, in increasing order. -/
def occIdx (s pat : List Char) : List Nat :=
  occAux pat s 0

/-- Python `s.rfind(pat)`: the largest occurrence position, if any. -/
def rfindL (s pat : List Char) : Option Nat :=
  (occIdx s pat).getLast?

/-- The triple-backtick fenced-code delimiter. -/
def fenceStr : List Char := "```".toList

/-- A blank-line paragraph break. -/
def paraStr : List Char := "\n\n".toList

/-- A sentence terminator followed by a space. -/
def sentStr : List Char := ". ".toList

/-- A bare newline. -/
def nlStr : List Char := "\n".toList

/-- A single space. -/
def spStr : List Char := " ".toList

/-- The backtick character (codepoint 96), the head of `fenceStr`. -/
def btChar : Char := Char.ofNat 96

/-!
`_smart_split`'s cut cascade.  The source compares `split_idx` (an `int`)
against `safe_chunk_size * 0.3` (resp. `* 0.1`), a float, with strict `>`.
For every integer `i` and budget `n` in the representable range these
comparisons coincide with the exact rational comparisons `10*i > 3*n`
(resp. `10*i > n`), which is how they are embedded here.
-/

/-- Splitting Priority 5 of `_smart_split`: space breaks, else hard cut at `safe`. -/
def cutSpace (w : List Char) (safe : Nat) : Nat :=
  match rfindL w spStr with
  | some i => if 10 * i > safe then i else safe
  | none => safe

/-- Splitting Priority 4 of `_smart_split`: bare line breaks. -/
def cutLine (w : List Char) (safe : Nat) : Nat :=
  match rfindL w nlStr with
  | some i => if 10 * i > 3 * safe then i else cutSpace w safe
  | none => cutSpace w safe

/-- Splitting Priority 3 of `_smart_split`: sentence breaks (the cut keeps the period). -/
def cutSent (w : List Char) (safe : Nat) : Nat :=
  match rfindL w sentStr with
  | some i => if 10 * i > 3 * safe then i + 1 else cutLine w safe
  | none => cutLine w safe

/-- Splitting Priority 2 of `_smart_split`: paragraph breaks. -/
def cutPara (w : List Char) (safe : Nat) : Nat :=
  match rfindL w paraStr with
  | some i => if 10 * i > 3 * safe then i else cutSent w safe
  | none => cutSent w safe

/-- Splitting Priority 1 of `_smart_split`: code-fence delimiters.  Returns
the offset (relative to the window start) at which the provisional window
is cut; `end = start + cutLen window safe` in the source. -/
def cutLen (w : List Char) (safe : Nat) : Nat :=
  match rfindL w fenceStr with
  | some i => if 10 * i > 3 * safe then i else cutPara w safe
  | none => cutPara w safe

/-- `header_prefix = f"{current_header}\n" if current_header else ""`. -/
def headerPre (hdr : List Char) : List Char :=
  if hdr.isEmpty then [] else hdr ++ ['\n']

/-- `safe_chunk_size` of `_smart_split`: the source computes
`chunk_size - len(header_prefix)` over `int` and falls back to the raw
`chunk_size` when that is `≤ 0`; over `Nat` inputs that is the following. -/
def safeChunkSize (cs : Nat) (hdr : List Char) : Nat :=
  if cs ≤ (headerPre hdr).length then cs else cs - (headerPre hdr).length

/-- One refined chunk of `_smart_split`: `text[start:end].strip()` where
`end = start + cutLen window safe`. -/
def midChunk (text : List Char) (safe start : Nat) : List Char :=
  stripL ((text.drop start).take (cutLen ((text.drop start).take safe) safe))

/-- The `while start < text_length` loop of `_smart_split`, with fuel;
`none` models a non-terminating run (which the Python loop exhibits only
for a zero body budget). -/
def smartSplitGo (text : List Char) (safe : Nat) : Nat → Nat → Option (List (List Char))
  | 0, _ => none
  | fuel + 1, start =>
    if start < text.length then
      if text.length ≤ start + safe then
        some (if (stripL (text.drop start)).isEmpty then [] else [stripL (text.drop start)])
      else
        match smartSplitGo text safe fuel
            (start + cutLen ((text.drop start).take safe) safe) with
        | none => none
        | some rest =>
          some ((if (midChunk text safe start).isEmpty then []
                 else [midChunk text safe start]) ++ rest)
    else some []

/-- `IntelligentChunker._smart_split`. -/
def smartSplit (cs : Nat) (text hdr : List Char) : Option (List (List Char)) :=
  smartSplitGo text (safeChunkSize cs hdr) (text.length + 1) 0

/-- `IntelligentChunker._process_section`: fast path for fitting sections,
otherwise smart-split and re-inject the owning header into every sub-chunk
after the first that does not already start with it. -/
def processSection (cs : Nat) (text hdr : List Char) : Option (List (List Char)) :=
  if text.length ≤ cs then some [text]
  else
    match smartSplit cs text hdr with
    | none => none
    | some subs =>
      some (match subs with
        | [] => []
        | c0 :: rest =>
          c0 :: rest.map (fun ch =>
            if !hdr.isEmpty && !(hdr.isPrefixOf ch) then headerPre hdr ++ ch else ch))

/-- `line.strip().startswith('```')`. -/
def isFenceLine (line : List Char) : Bool :=
  fenceStr.isPrefixOf (stripL line)

/-- `re.match(r"^(#{1,6})\s+(.*)$", line)`: one to six leading `#`
characters followed by at least one whitespace character. -/
def isHeaderLine (line : List Char) : Bool :=
  let k := (line.takeWhile (fun c => c = '#')).length
  if 1 ≤ k ∧ k ≤ 6 then
    match line.get? k with
    | some c => isPySpace c
    | none => false
  else false

/-- The loop state of `chunk_text`'s line scan. -/
structure ScanState where
  chunks : List (List Char)
  current_header : List Char
  current_section : List (List Char)
  in_code_block : Bool
deriving DecidableEq

/-- Initial scan state of `chunk_text`. -/
def initScan : ScanState := ⟨[], [], [], false⟩

/-- One iteration of `chunk_text`'s `for line in lines` loop. -/
def scanStep (cs : Nat) (st : ScanState) (line : List Char) : Option ScanState :=
  if isFenceLine line then
    some { st with current_section := st.current_section ++ [line],
                   in_code_block := !st.in_code_block }
  else if !st.in_code_block && isHeaderLine line then
    if (stripL (joinNL st.current_section)).isEmpty then
      some ⟨st.chunks, stripL line, [line], st.in_code_block⟩
    else
      match processSection cs (stripL (joinNL st.current_section)) st.current_header with
      | none => none
      | some out => some ⟨st.chunks ++ out, stripL line, [line], st.in_code_block⟩
  else
    some { st with current_section := st.current_section ++ [line] }

/-- The full line scan of `chunk_text`. -/
def scanLines (cs : Nat) : ScanState → List (List Char) → Option ScanState
  | st, [] => some st
  | st, l :: ls =>
    match scanStep cs st l with
    | none => none
    | some st' => scanLines cs st' ls

/-- The trailing-section handling of `chunk_text`: after the line scan,
process the final accumulated section if its trimmed text is non-empty. -/
def finishScan (cs : Nat) (st : ScanState) : Option (List (List Char)) :=
  if (stripL (joinNL st.current_section)).isEmpty then some st.chunks
  else
    match processSection cs (stripL (joinNL st.current_section)) st.current_header with
    | none => none
    | some out => some (st.chunks ++ out)

/-- `IntelligentChunker.chunk_text` (with `chunk_size = cs`). -/
def chunkText (cs : Nat) (text : List Char) : Option (List (List Char)) :=
  if text.isEmpty then some []
  else
    match scanLines cs initScan (splitNL text) with
    | none => none
    | some st => finishScan cs st

/-!  `extract_code_blocks`  -/

/-- An extracted code block record. -/
structure CodeBlock where
  code : List Char
  language : List Char
  context_before : List Char
  context_after : List Char
deriving DecidableEq

/-- `start_offset = 3 if content.startswith('```') else 0` where
`content = markdown_content.strip()`. -/
def startOffset (md : List Char) : Nat :=
  if fenceStr.isPrefixOf (stripL md) then 3 else 0

/-- The `find`/`pos += 3` loop of `extract_code_blocks`, expressed over the
increasing list of all occurrence positions: repeatedly take the first
occurrence at or after the lower bound, then resume three characters later. -/
def greedyPick : List Nat → Nat → List Nat
  | [], _ => []
  | p :: ps, lo => if p < lo then greedyPick ps lo else p :: greedyPick ps (p + 3)

/-- `backtick_positions` as collected by `extract_code_blocks`. -/
def backtickPositions (md : List Char) : List Nat :=
  greedyPick (occIdx md fenceStr) (startOffset md)

/-- The `while i < len(backtick_positions) - 1 ... i += 2` pairing. -/
def pairUp : List Nat → List (Nat × Nat)
  | p :: q :: rest => (p, q) :: pairUp rest
  | _ => []

/-- Python `s.split('\n', 1)` when `s` contains a newline (`none` otherwise). -/
def splitFirstNL (s : List Char) : Option (List Char × List Char) :=
  match s with
  | [] => none
  | c :: rest =>
    if c = '\n' then some ([], rest)
    else (splitFirstNL rest).map (fun p => (c :: p.1, p.2))

/-- The body of the pairing loop of `extract_code_blocks` for one delimiter
pair `(s, e)`: classify the language tag, drop blocks shorter than
`minLen`, and capture 500 characters of surrounding context. -/
def extractBlock (md : List Char) (pr : Nat × Nat) (minLen : Nat) : Option CodeBlock :=
  let s := pr.1
  let e := pr.2
  let codeSection := (md.drop (s + 3)).take (e - (s + 3))
  let lang_code : List Char × List Char :=
    match splitFirstNL codeSection with
    | some (first, rest) =>
      let f := stripL first
      if !f.isEmpty && !(f.contains ' ') && f.length < 20 then (f, stripL rest)
      else ([], stripL codeSection)
    | none => ([], stripL codeSection)
  if lang_code.2.length < minLen then none
  else
    some { code := lang_code.2
           language := lang_code.1
           context_before := stripL ((md.take s).drop (s - 500))
           context_after := stripL ((md.drop (e + 3)).take 500) }

/-- `extract_code_blocks`. -/
def extractCodeBlocks (md : List Char) (minLen : Nat) : List CodeBlock :=
  (pairUp (backtickPositions md)).filterMap (fun pr => extractBlock md pr minLen)

/-!
A second rendering of the cut cascade, following the specification's
words: an ordered list of (pattern, minimum-fraction, extra-offset) rules
evaluated top to bottom; the first rule whose backward search succeeds
and whose offset clears its threshold determines the cut, and if none
does the window is cut at the full budget.
-/

/-- One boundary heuristic of the specification's cascade: a pattern, the
numerator of its minimum fraction (over 10), and the extra offset added
to an accepted cut. -/
structure CutRule where
  pat : List Char
  num : Nat
  add : Nat

/-- The specification's rule table: fence, paragraph, sentence (keeping
the period), newline — all at threshold 3/10 — then space at 1/10. -/
def specRules : List CutRule :=
  [⟨fenceStr, 3, 0⟩, ⟨paraStr, 3, 0⟩, ⟨sentStr, 3, 1⟩, ⟨nlStr, 3, 0⟩, ⟨spStr, 1, 0⟩]

/-- Evaluate the rule table top to bottom, defaulting to the full budget. -/
def runRules : List CutRule → List Char → Nat → Nat
  | [], _, safe => safe
  | r :: rs, w, safe =>
    match rfindL w r.pat with
    | some i => if 10 * i > r.num * safe then i + r.add else runRules rs w safe
    | none => runRules rs w safe

/-!  Concrete inputs used by the scenario theorems and witnesses.  -/

/-- Scenario D's input: a document that is exactly one fenced block. -/
def scenarioD : List Char := "```python\nprint(1)\n```".toList

/-- A markdown document with two fence delimiters, not at the start. -/
def mdW : List Char := "a```b```c".toList

/-- A balanced-fence document whose first split window contains the whole
fenced block. -/
def cexText : List Char := "aaaa\n```\nbb\n```\ncccccccccc".toList

/-- First chunk produced for `cexText` at `chunk_size = 20`. -/
def chunkA : List Char := "aaaa\n```\nbb".toList

/-- Second chunk produced for `cexText` at `chunk_size = 20`. -/
def chunkB : List Char := "```\ncccccccccc".toList

/-- The first provisional window of `cexText` at budget 20. -/
def cexWindow : List Char := "aaaa\n```\nbb\n```\ncccc".toList

/-- Scenario E's window: a fence delimiter at 40% of a 500-character
budget and a paragraph break at 60%. -/
def scenarioEWindow : List Char :=
  List.replicate 200 'x' ++ "```".toList ++ List.replicate 97 'y' ++
    "\n\n".toList ++ List.replicate 198 'z'

/-- Scenario C's document: a 7-character header, a newline, and 2000
break-free ASCII characters. -/
def docC : List Char := "# Title\n".toList ++ List.replicate 2000 'a'

/-- Scenario C's header. -/
def hdrTitle : List Char := "# Title".toList

/-- Scenario C's body. -/
def aBody : List Char := List.replicate 2000 'a'

/-- Scenario C's single semantic section: the header line plus the body. -/
def sectC : List Char := hdrTitle ++ '\n' :: aBody

/-- The first provisional window (and first chunk) of `sectC` at budget 492. -/
def w0C : List Char := hdrTitle ++ '\n' :: List.replicate 484 'a'

/-- A small oversized section used by several witnesses. -/
def sectW : List Char := "# H\nabcdefghij klmno".toList

/-- The owning header of `sectW`. -/
def hdrW : List Char := "# H".toList

/-- The chunks produced for `sectW` at `chunk_size = 10`. -/
def outW : List (List Char) :=
  ["# H".toList, "# H\nabcde".toList, "# H\nfghij".toList, "# H\nklmno".toList]

/-- A scan state in the middle of a fenced block. -/
def stW : ScanState := ⟨[], [], [], true⟩

/-- A header-like line (a shell comment, say) seen inside a fenced block. -/
def lineW : List Char := "# B".toList

/-!  Correctness of the occurrence list and of `rfindL`.  -/

lemma mem_occAux {pat : List Char} (hpat : pat ≠ []) :
    ∀ (l : List Char) (b j : Nat),
      j ∈ occAux pat l b ↔ b ≤ j ∧ pat.isPrefixOf (l.drop (j - b)) = true
  | [], b, j => by
      constructor
      · intro h
        simp [occAux] at h
      · rintro ⟨_, h⟩
        rw [List.drop_nil, List.isPrefixOf_iff_prefix, List.prefix_nil] at h
        exact absurd h hpat
  | c :: rest, b, j => by
      have ih := mem_occAux hpat rest (b + 1) j
      constructor
      · intro h
        simp only [occAux, List.mem_append] at h
        rcases h with h | h
        · by_cases hp : pat.isPrefixOf (c :: rest) = true
          · simp only [hp, if_true, List.mem_singleton] at h
            subst h
            simpa using hp
          · simp [hp] at h
        · obtain ⟨hb, hdrop⟩ := ih.mp h
          refine ⟨by omega, ?_⟩
          have hj : j - b = (j - (b + 1)) + 1 := by omega
          rw [hj, List.drop_succ_cons]
          exact hdrop
      · rintro ⟨hb, hdrop⟩
        simp only [occAux, List.mem_append]
        rcases Nat.eq_or_lt_of_le hb with heq | hlt
        · subst heq
          left
          rw [Nat.sub_self, List.drop_zero] at hdrop
          simp [hdrop]
        · right
          apply ih.mpr
          refine ⟨by omega, ?_⟩
          have hj : j - b = (j - (b + 1)) + 1 := by omega
          rw [hj, List.drop_succ_cons] at hdrop
          exact hdrop

lemma occAux_lb (pat : List Char) :
    ∀ (l : List Char) (b : Nat), ∀ j ∈ occAux pat l b, b ≤ j
  | [], b => by simp [occAux]
  | c :: rest, b => by
      intro j hj
      simp only [occAux, List.mem_append] at hj
      rcases hj with hj | hj
      · by_cases hp : pat.isPrefixOf (c :: rest) = true
        · simp only [hp, if_true, List.mem_singleton] at hj
          omega
        · simp [hp] at hj
      · have := occAux_lb pat rest (b + 1) j hj
        omega

lemma occAux_pairwise (pat : List Char) :
    ∀ (l : List Char) (b : Nat), (occAux pat l b).Pairwise (· < ·)
  | [], b => by simp [occAux]
  | c :: rest, b => by
      unfold occAux
      by_cases hp : pat.isPrefixOf (c :: rest) = true
      · rw [if_pos hp]
        refine List.Pairwise.cons ?_ (occAux_pairwise pat rest (b + 1))
        intro j hj
        have := occAux_lb pat rest (b + 1) j hj
        omega
      · rw [if_neg hp, List.nil_append]
        exact occAux_pairwise pat rest (b + 1)

lemma mem_occIdx {s pat : List Char} (hpat : pat ≠ []) (j : Nat) :
    j ∈ occIdx s pat ↔ matchAt s pat j = true := by
  unfold occIdx matchAt
  rw [mem_occAux hpat]
  simp

lemma pairwise_getLast_max :
    ∀ (l : List Nat), l.Pairwise (· < ·) → ∀ i, l.getLast? = some i → ∀ j ∈ l, j ≤ i
  | [], _, i, h => by simp at h
  | [x], _, i, h => by
      intro j hj
      simp only [List.getLast?_singleton, Option.some.injEq] at h
      simp only [List.mem_singleton] at hj
      omega
  | x :: y :: t, hp, i, h => by
      rw [List.getLast?_cons_cons] at h
      obtain ⟨hx, htail⟩ := List.pairwise_cons.mp hp
      intro j hj
      rcases List.mem_cons.mp hj with heq | hj2
      · subst heq
        exact le_of_lt (hx i (List.mem_of_getLast?_eq_some h))
      · exact pairwise_getLast_max (y :: t) htail i h j hj2

lemma rfindL_matchAt {s pat : List Char} (hpat : pat ≠ []) {i : Nat}
    (h : rfindL s pat = some i) : matchAt s pat i = true :=
  (mem_occIdx hpat i).mp (List.mem_of_getLast?_eq_some h)

lemma rfindL_max {s pat : List Char} (hpat : pat ≠ []) {i : Nat}
    (h : rfindL s pat = some i) : ∀ j, matchAt s pat j = true → j ≤ i := by
  intro j hj
  exact pairwise_getLast_max _ (occAux_pairwise pat s 0) i h j ((mem_occIdx hpat j).mpr hj)

lemma matchAt_bound {s pat : List Char} (hpat : pat ≠ []) {i : Nat}
    (h : matchAt s pat i = true) : i + pat.length ≤ s.length := by
  unfold matchAt at h
  rw [List.isPrefixOf_iff_prefix] at h
  have hlen := h.length_le
  rw [List.length_drop] at hlen
  have hi : i < s.length := by
    by_contra hge
    push_neg at hge
    rw [List.drop_eq_nil_of_le hge, List.prefix_nil] at h
    exact hpat h
  omega

/-!  Bounds on the cut cascade.  -/

lemma cutSpace_pos {w : List Char} {safe : Nat} (h : 1 ≤ safe) : 1 ≤ cutSpace w safe := by
  cases hr : rfindL w spStr with
  | none => simp only [cutSpace, hr]; omega
  | some i => simp only [cutSpace, hr]; split <;> omega

lemma cutLine_pos {w : List Char} {safe : Nat} (h : 1 ≤ safe) : 1 ≤ cutLine w safe := by
  cases hr : rfindL w nlStr with
  | none => simp only [cutLine, hr]; exact cutSpace_pos h
  | some i =>
    simp only [cutLine, hr]
    split
    · omega
    · exact cutSpace_pos h

lemma cutSent_pos {w : List Char} {safe : Nat} (h : 1 ≤ safe) : 1 ≤ cutSent w safe := by
  cases hr : rfindL w sentStr with
  | none => simp only [cutSent, hr]; exact cutLine_pos h
  | some i =>
    simp only [cutSent, hr]
    split
    · omega
    · exact cutLine_pos h

lemma cutPara_pos {w : List Char} {safe : Nat} (h : 1 ≤ safe) : 1 ≤ cutPara w safe := by
  cases hr : rfindL w paraStr with
  | none => simp only [cutPara, hr]; exact cutSent_pos h
  | some i =>
    simp only [cutPara, hr]
    split
    · omega
    · exact cutSent_pos h

/-- Every accepted heuristic cut offset is at least 1, and so is the hard
cut, whenever the budget is positive: the splitting cursor strictly
increases on every iteration. -/
lemma cutLen_pos {w : List Char} {safe : Nat} (h : 1 ≤ safe) : 1 ≤ cutLen w safe := by
  cases hr : rfindL w fenceStr with
  | none => simp only [cutLen, hr]; exact cutPara_pos h
  | some i =>
    simp only [cutLen, hr]
    split
    · omega
    · exact cutPara_pos h

lemma cutSpace_le {w : List Char} {safe : Nat} (hw : w.length ≤ safe) :
    cutSpace w safe ≤ safe := by
  cases hr : rfindL w spStr with
  | none => simp only [cutSpace, hr]; omega
  | some i =>
    simp only [cutSpace, hr]
    have hb := matchAt_bound (by decide) (rfindL_matchAt (by decide) hr)
    have hl : spStr.length = 1 := rfl
    split <;> omega

lemma cutLine_le {w : List Char} {safe : Nat} (hw : w.length ≤ safe) :
    cutLine w safe ≤ safe := by
  cases hr : rfindL w nlStr with
  | none => simp only [cutLine, hr]; exact cutSpace_le hw
  | some i =>
    simp only [cutLine, hr]
    have hb := matchAt_bound (by decide) (rfindL_matchAt (by decide) hr)
    have hl : nlStr.length = 1 := rfl
    split
    · omega
    · exact cutSpace_le hw

lemma cutSent_le {w : List Char} {safe : Nat} (hw : w.length ≤ safe) :
    cutSent w safe ≤ safe := by
  cases hr : rfindL w sentStr with
  | none => simp only [cutSent, hr]; exact cutLine_le hw
  | some i =>
    simp only [cutSent, hr]
    have hb := matchAt_bound (by decide) (rfindL_matchAt (by decide) hr)
    have hl : sentStr.length = 2 := rfl
    split
    · omega
    · exact cutLine_le hw

lemma cutPara_le {w : List Char} {safe : Nat} (hw : w.length ≤ safe) :
    cutPara w safe ≤ safe := by
  cases hr : rfindL w paraStr with
  | none => simp only [cutPara, hr]; exact cutSent_le hw
  | some i =>
    simp only [cutPara, hr]
    have hb := matchAt_bound (by decide) (rfindL_matchAt (by decide) hr)
    have hl : paraStr.length = 2 := rfl
    split
    · omega
    · exact cutSent_le hw

/-- The refined cut never exceeds the provisional window. -/
lemma cutLen_le {w : List Char} {safe : Nat} (hw : w.length ≤ safe) :
    cutLen w safe ≤ safe := by
  cases hr : rfindL w fenceStr with
  | none => simp only [cutLen, hr]; exact cutPara_le hw
  | some i =>
    simp only [cutLen, hr]
    have hb := matchAt_bound (by decide) (rfindL_matchAt (by decide) hr)
    have hl : fenceStr.length = 3 := rfl
    split
    · omega
    · exact cutPara_le hw

/-!  Elementary facts about `stripL` and the budget.  -/

lemma stripL_length_le (s : List Char) : (stripL s).length ≤ s.length := by
  unfold stripL
  rw [List.length_reverse]
  calc ((s.dropWhile isPySpace).reverse.dropWhile isPySpace).length
      ≤ (s.dropWhile isPySpace).reverse.length :=
        (List.dropWhile_sublist isPySpace).length_le
    _ = (s.dropWhile isPySpace).length := List.length_reverse _
    _ ≤ s.length := (List.dropWhile_sublist isPySpace).length_le

lemma headerPre_length {hdr : List Char} (h : hdr ≠ []) :
    (headerPre hdr).length = hdr.length + 1 := by
  unfold headerPre
  rw [if_neg (by simpa [List.isEmpty_iff] using h)]
  simp

lemma safeChunkSize_pos {cs : Nat} (hcs : 0 < cs) (hdr : List Char) :
    1 ≤ safeChunkSize cs hdr := by
  unfold safeChunkSize
  split <;> omega

lemma safeChunkSize_le (cs : Nat) (hdr : List Char) : safeChunkSize cs hdr ≤ cs := by
  unfold safeChunkSize
  split <;> omega

/-!  Totality of the splitting loop for positive budgets.  -/

lemma smartSplitGo_isSome {text : List Char} {safe : Nat} (hs : 1 ≤ safe) :
    ∀ (fuel start : Nat), text.length - start < fuel →
      (smartSplitGo text safe fuel start).isSome = true
  | 0, start => by omega
  | fuel + 1, start => by
      intro hlt
      by_cases h1 : start < text.length
      · by_cases h2 : text.length ≤ start + safe
        · simp only [smartSplitGo, if_pos h1, if_pos h2]
          split <;> rfl
        · have hoff : 1 ≤ cutLen ((text.drop start).take safe) safe := cutLen_pos hs
          have hrec : (smartSplitGo text safe fuel
              (start + cutLen ((text.drop start).take safe) safe)).isSome = true :=
            smartSplitGo_isSome hs fuel _ (by omega)
          simp only [smartSplitGo, if_pos h1, if_neg h2]
          cases hres : smartSplitGo text safe fuel
              (start + cutLen ((text.drop start).take safe) safe) with
          | none => rw [hres] at hrec; exact absurd hrec (by simp)
          | some rest => rfl
      · simp only [smartSplitGo, if_neg h1]
        rfl

lemma smartSplit_isSome {cs : Nat} (hcs : 0 < cs) (text hdr : List Char) :
    (smartSplit cs text hdr).isSome = true := by
  unfold smartSplit
  exact smartSplitGo_isSome (safeChunkSize_pos hcs hdr) (text.length + 1) 0 (by omega)

lemma processSection_isSome {cs : Nat} (hcs : 0 < cs) (text hdr : List Char) :
    (processSection cs text hdr).isSome = true := by
  unfold processSection
  split
  · rfl
  · cases hs : smartSplit cs text hdr with
    | none =>
      have := smartSplit_isSome hcs text hdr
      rw [hs] at this
      exact absurd this (by simp)
    | some subs => rfl

lemma scanStep_isSome {cs : Nat} (hcs : 0 < cs) (st : ScanState) (line : List Char) :
    (scanStep cs st line).isSome = true := by
  unfold scanStep
  split
  · rfl
  · split
    · split
      · rfl
      · cases hps : processSection cs (stripL (joinNL st.current_section))
            st.current_header with
        | none =>
          have := processSection_isSome hcs (stripL (joinNL st.current_section))
            st.current_header
          rw [hps] at this
          exact absurd this (by simp)
        | some out => rfl
    · rfl

lemma scanLines_isSome {cs : Nat} (hcs : 0 < cs) :
    ∀ (ls : List (List Char)) (st : ScanState), (scanLines cs st ls).isSome = true
  | [], st => rfl
  | l :: ls, st => by
      cases hstep : scanStep cs st l with
      | none =>
        have := scanStep_isSome hcs st l
        rw [hstep] at this
        exact absurd this (by simp)
      | some st2 =>
        simp only [scanLines, hstep]
        exact scanLines_isSome hcs ls st2

lemma finishScan_isSome {cs : Nat} (hcs : 0 < cs) (st : ScanState) :
    (finishScan cs st).isSome = true := by
  unfold finishScan
  split
  · rfl
  · cases hps : processSection cs (stripL (joinNL st.current_section))
        st.current_header with
    | none =>
      have := processSection_isSome hcs (stripL (joinNL st.current_section))
        st.current_header
      rw [hps] at this
      exact absurd this (by simp)
    | some out => rfl

lemma chunkText_isSome {cs : Nat} (hcs : 0 < cs) (text : List Char) :
    (chunkText cs text).isSome = true := by
  unfold chunkText
  split
  · rfl
  · cases hsc : scanLines cs initScan (splitNL text) with
    | none =>
      have := scanLines_isSome hcs (splitNL text) initScan
      rw [hsc] at this
      exact absurd this (by simp)
    | some st => exact finishScan_isSome hcs st

/-!  The chunk-length bound of the splitting loop.  -/

lemma smartSplitGo_len_le {text : List Char} {safe : Nat} :
    ∀ (fuel start : Nat) (out : List (List Char)),
      smartSplitGo text safe fuel start = some out → ∀ c ∈ out, c.length ≤ safe
  | 0, start, out => by
      intro h
      simp [smartSplitGo] at h
  | fuel + 1, start, out => by
      intro h c hc
      by_cases h1 : start < text.length
      · by_cases h2 : text.length ≤ start + safe
        · simp only [smartSplitGo, if_pos h1, if_pos h2, Option.some.injEq] at h
          subst h
          split at hc
          · simp at hc
          · simp only [List.mem_singleton] at hc
            subst hc
            calc (stripL (text.drop start)).length
                ≤ (text.drop start).length := stripL_length_le _
              _ ≤ safe := by rw [List.length_drop]; omega
        · simp only [smartSplitGo, if_pos h1, if_neg h2] at h
          cases hres : smartSplitGo text safe fuel
              (start + cutLen ((text.drop start).take safe) safe) with
          | none => rw [hres] at h; simp at h
          | some rest =>
            rw [hres] at h
            simp only [Option.some.injEq] at h
            subst h
            rcases List.mem_append.mp hc with hcl | hcr
            · have hwlen : ((text.drop start).take safe).length ≤ safe := by
                simp [List.length_take]
              have hcut := cutLen_le hwlen
              split at hcl
              · simp at hcl
              · simp only [List.mem_singleton] at hcl
                subst hcl
                calc (midChunk text safe start).length
                    ≤ ((text.drop start).take
                        (cutLen ((text.drop start).take safe) safe)).length :=
                      stripL_length_le _
                  _ ≤ cutLen ((text.drop start).take safe) safe := by
                      simp [List.length_take]
                  _ ≤ safe := hcut
            · exact smartSplitGo_len_le fuel _ rest hres c hcr
      · simp only [smartSplitGo, if_neg h1, Option.some.injEq] at h
        subst h
        simp at hc

lemma smartSplit_len_le {cs : Nat} {text hdr : List Char} {subs : List (List Char)}
    (h : smartSplit cs text hdr = some subs) :
    ∀ c ∈ subs, c.length ≤ safeChunkSize cs hdr :=
  smartSplitGo_len_le (text.length + 1) 0 subs h

/-!  The positions collected by `extract_code_blocks`.  -/

lemma greedyPick_sub : ∀ (l : List Nat) (lo : Nat), ∀ j ∈ greedyPick l lo, j ∈ l ∧ lo ≤ j
  | [], lo => by simp [greedyPick]
  | p :: ps, lo => by
      intro j hj
      unfold greedyPick at hj
      split at hj
      · obtain ⟨h1, h2⟩ := greedyPick_sub ps lo j hj
        exact ⟨List.mem_cons_of_mem _ h1, h2⟩
      · rcases List.mem_cons.mp hj with heq | hj2
        · subst heq
          exact ⟨List.mem_cons_self _ _, by omega⟩
        · obtain ⟨h1, h2⟩ := greedyPick_sub ps (p + 3) j hj2
          exact ⟨List.mem_cons_of_mem _ h1, by omega⟩

lemma greedyPick_pairwise :
    ∀ (l : List Nat), l.Pairwise (· < ·) → ∀ lo, (greedyPick l lo).Pairwise (· < ·)
  | [], _, lo => by simp [greedyPick]
  | p :: ps, hp, lo => by
      obtain ⟨hlt, htail⟩ := List.pairwise_cons.mp hp
      unfold greedyPick
      split
      · exact greedyPick_pairwise ps htail lo
      · refine List.Pairwise.cons ?_ (greedyPick_pairwise ps htail (p + 3))
        intro j hj
        exact hlt j (greedyPick_sub ps (p + 3) j hj).1

lemma pairUp_length : ∀ (l : List Nat), (pairUp l).length = l.length / 2
  | [] => by simp [pairUp]
  | [_] => by simp [pairUp]
  | p :: q :: rest => by
      have ih := pairUp_length rest
      simp only [pairUp, List.length_cons]
      omega

/-!  Header re-injection of `_process_section`.  -/

lemma processSection_inj {cs : Nat} {text hdr : List Char} {out : List (List Char)}
    (hlong : ¬ text.length ≤ cs) (h : processSection cs text hdr = some out) :
    ∃ subs, smartSplit cs text hdr = some subs ∧
      out = (match subs with
        | [] => []
        | c0 :: rest =>
          c0 :: rest.map (fun ch =>
            if !hdr.isEmpty && !(hdr.isPrefixOf ch) then headerPre hdr ++ ch else ch)) := by
  unfold processSection at h
  rw [if_neg hlong] at h
  cases hs : smartSplit cs text hdr with
  | none => rw [hs] at h; exact absurd h (by simp)
  | some subs =>
    rw [hs] at h
    simp only [Option.some.injEq] at h
    exact ⟨subs, rfl, h.symm⟩

/-!  The rule-table cascade agrees with the source's nested conditionals,
one priority level at a time.  -/

lemma runRules_cons (r : CutRule) (rs : List CutRule) (w : List Char) (safe : Nat) :
    runRules (r :: rs) w safe =
      match rfindL w r.pat with
      | some i => if 10 * i > r.num * safe then i + r.add else runRules rs w safe
      | none => runRules rs w safe := rfl

lemma runRules_space (w : List Char) (safe : Nat) :
    runRules [⟨spStr, 1, 0⟩] w safe = cutSpace w safe := by
  rw [runRules_cons]
  cases h : rfindL w spStr <;>
    simp only [h, cutSpace, runRules, Nat.one_mul, Nat.add_zero]

lemma runRules_line (w : List Char) (safe : Nat) :
    runRules [⟨nlStr, 3, 0⟩, ⟨spStr, 1, 0⟩] w safe = cutLine w safe := by
  rw [runRules_cons]
  cases h : rfindL w nlStr <;>
    simp only [h, cutLine, Nat.add_zero, runRules_space]

lemma runRules_sent (w : List Char) (safe : Nat) :
    runRules [⟨sentStr, 3, 1⟩, ⟨nlStr, 3, 0⟩, ⟨spStr, 1, 0⟩] w safe = cutSent w safe := by
  rw [runRules_cons]
  cases h : rfindL w sentStr <;>
    simp only [h, cutSent, runRules_line]

lemma runRules_para (w : List Char) (safe : Nat) :
    runRules [⟨paraStr, 3, 0⟩, ⟨sentStr, 3, 1⟩, ⟨nlStr, 3, 0⟩, ⟨spStr, 1, 0⟩] w safe =
      cutPara w safe := by
  rw [runRules_cons]
  cases h : rfindL w paraStr <;>
    simp only [h, cutPara, Nat.add_zero, runRules_sent]

lemma runRules_fence (w : List Char) (safe : Nat) :
    runRules specRules w safe = cutLen w safe := by
  rw [specRules, runRules_cons]
  cases h : rfindL w fenceStr <;>
    simp only [h, cutLen, Nat.add_zero, runRules_para]

/-!  Scenario C, established symbolically: direct evaluation of a
2000-character document is out of reach of kernel reduction, so the run
of the chunker on `docC` is derived from structural lemmas instead.  -/

lemma splitNL_ne_nil : ∀ (l : List Char), splitNL l ≠ []
  | [] => by simp [splitNL]
  | c :: rest => by
      unfold splitNL
      split
      · simp
      · cases h : splitNL rest with
        | nil => simp
        | cons g gs => simp

lemma splitNL_cons_of_ne (c : Char) (l : List Char) (hc : ¬ c = '\n') {g : List Char}
    {gs : List (List Char)} (h : splitNL l = g :: gs) :
    splitNL (c :: l) = (c :: g) :: gs := by
  unfold splitNL
  rw [if_neg hc, h]

lemma splitNL_of_no_nl : ∀ (l : List Char), (∀ x ∈ l, ¬ x = '\n') → splitNL l = [l]
  | [], _ => rfl
  | c :: rest, h =>
      splitNL_cons_of_ne c rest (h c (List.mem_cons_self _ _))
        (splitNL_of_no_nl rest (fun x hx => h x (List.mem_cons_of_mem _ hx)))

lemma splitNL_append_nl : ∀ (l₁ l₂ : List Char), (∀ x ∈ l₁, ¬ x = '\n') →
    splitNL (l₁ ++ '\n' :: l₂) = l₁ :: splitNL l₂
  | [], l₂, _ => by
      simp [List.nil_append, splitNL]
  | c :: l₁, l₂, h => by
      have ih := splitNL_append_nl l₁ l₂ (fun x hx => h x (List.mem_cons_of_mem _ hx))
      simp only [List.cons_append]
      exact splitNL_cons_of_ne c _ (h c (List.mem_cons_self _ _)) ih

lemma dropWhile_head_neg {p : Char → Bool} :
    ∀ {l : List Char}, (∀ c, l.head? = some c → p c = false) → l.dropWhile p = l
  | [], _ => rfl
  | c :: rest, h => by
      have hc : p c = false := h c rfl
      simp [List.dropWhile_cons, hc]

lemma stripL_eq_self {s : List Char}
    (h1 : ∀ c, s.head? = some c → isPySpace c = false)
    (h2 : ∀ c, s.getLast? = some c → isPySpace c = false) : stripL s = s := by
  unfold stripL
  rw [dropWhile_head_neg h1]
  rw [dropWhile_head_neg (fun c hc => h2 c (by rwa [List.head?_reverse] at hc))]
  exact List.reverse_reverse s

lemma stripL_replicate (k : Nat) : stripL (List.replicate k 'a') = List.replicate k 'a' := by
  cases k with
  | zero => rfl
  | succ n =>
    apply stripL_eq_self
    · intro c hc
      rw [List.replicate_succ, List.head?_cons] at hc
      simp only [Option.some.injEq] at hc
      subst hc
      decide
    · intro c hc
      rw [List.replicate_succ', List.getLast?_concat] at hc
      simp only [Option.some.injEq] at hc
      subst hc
      decide

lemma isPrefixOf_replicate_false {pat : List Char} {p : Char} (hh : pat.head? = some p)
    (hp : ¬ p = 'a') (k : Nat) : pat.isPrefixOf (List.replicate k 'a') = false := by
  rw [List.isPrefixOf_replicate]
  cases pat with
  | nil => simp at hh
  | cons q qs =>
    have hq : q = p := by
      rw [List.head?_cons] at hh
      exact Option.some.inj hh
    have hbeq : (q == 'a') = false := by
      rw [hq]
      simp only [beq_eq_false_iff_ne, ne_eq]
      exact hp
    simp [List.all_cons, hbeq]

lemma rfindL_eq_none_of {s pat : List Char} (hpat : pat ≠ [])
    (h : ∀ j, matchAt s pat j = false) : rfindL s pat = none := by
  have hocc : occIdx s pat = [] := by
    rw [List.eq_nil_iff_forall_not_mem]
    intro j hj
    have hm := (mem_occIdx hpat j).mp hj
    rw [h j] at hm
    exact Bool.noConfusion hm
  unfold rfindL
  rw [hocc]
  rfl

lemma rfindL_eq_some_of {s pat : List Char} (hpat : pat ≠ []) {i : Nat}
    (hi : matchAt s pat i = true) (hmax : ∀ j, matchAt s pat j = true → j ≤ i) :
    rfindL s pat = some i := by
  cases hL : rfindL s pat with
  | none =>
    have hL2 := hL
    unfold rfindL at hL2
    rw [List.getLast?_eq_none_iff] at hL2
    have hmem : i ∈ occIdx s pat := (mem_occIdx hpat i).mpr hi
    rw [hL2] at hmem
    simp at hmem
  | some L =>
    have hLm : matchAt s pat L = true := rfindL_matchAt hpat hL
    have h1 : L ≤ i := hmax L hLm
    have h2 : i ≤ L := rfindL_max hpat hL i hi
    have : L = i := by omega
    rw [this]

lemma rfindL_replicate_none {pat : List Char} {p : Char} (hh : pat.head? = some p)
    (hp : ¬ p = 'a') (k : Nat) : rfindL (List.replicate k 'a') pat = none := by
  apply rfindL_eq_none_of
  · intro he
    rw [he] at hh
    simp at hh
  · intro j
    unfold matchAt
    rw [List.drop_replicate]
    exact isPrefixOf_replicate_false hh hp _

lemma cutLen_replicate (k safe : Nat) : cutLen (List.replicate k 'a') safe = safe := by
  have hf := @rfindL_replicate_none fenceStr btChar (by decide) (by decide) k
  have hpa := @rfindL_replicate_none paraStr '\n' (by decide) (by decide) k
  have hse := @rfindL_replicate_none sentStr '.' (by decide) (by decide) k
  have hnl := @rfindL_replicate_none nlStr '\n' (by decide) (by decide) k
  have hsp := @rfindL_replicate_none spStr ' ' (by decide) (by decide) k
  simp only [cutLen, hf, cutPara, hpa, cutSent, hse, cutLine, hnl, cutSpace, hsp]

lemma w0C_eq : w0C = (hdrTitle ++ ['\n']) ++ List.replicate 484 'a' := by
  simp [w0C, List.append_assoc]

lemma matchAt_w0C_high {pat : List Char} {p : Char} (hh : pat.head? = some p)
    (hp : ¬ p = 'a') {j : Nat} (hj : 8 ≤ j) : matchAt w0C pat j = false := by
  unfold matchAt
  have hd : w0C.drop j = List.replicate (484 - (j - 8)) 'a' := by
    rw [w0C_eq, List.drop_append_eq_append_drop]
    have hlen : (hdrTitle ++ ['\n']).length = 8 := by decide
    rw [List.drop_eq_nil_of_le (by rw [hlen]; omega), hlen, List.nil_append,
      List.drop_replicate]
  rw [hd]
  exact isPrefixOf_replicate_false hh hp _

lemma w0C_fence_none : rfindL w0C fenceStr = none := by
  apply rfindL_eq_none_of (by decide)
  intro j
  by_cases hj : 8 ≤ j
  · exact @matchAt_w0C_high fenceStr btChar (by decide) (by decide) j hj
  · push_neg at hj
    interval_cases j <;> decide

lemma w0C_para_none : rfindL w0C paraStr = none := by
  apply rfindL_eq_none_of (by decide)
  intro j
  by_cases hj : 8 ≤ j
  · exact @matchAt_w0C_high paraStr '\n' (by decide) (by decide) j hj
  · push_neg at hj
    interval_cases j <;> decide

lemma w0C_sent_none : rfindL w0C sentStr = none := by
  apply rfindL_eq_none_of (by decide)
  intro j
  by_cases hj : 8 ≤ j
  · exact @matchAt_w0C_high sentStr '.' (by decide) (by decide) j hj
  · push_neg at hj
    interval_cases j <;> decide

lemma w0C_nl_some : rfindL w0C nlStr = some 7 := by
  apply rfindL_eq_some_of (by decide) (by decide)
  intro j hm
  by_cases hj : 8 ≤ j
  · rw [@matchAt_w0C_high nlStr '\n' (by decide) (by decide) j hj] at hm
    exact absurd hm (by simp)
  · omega

lemma w0C_sp_some : rfindL w0C spStr = some 1 := by
  apply rfindL_eq_some_of (by decide) (by decide)
  intro j hm
  by_cases hj : 8 ≤ j
  · rw [@matchAt_w0C_high spStr ' ' (by decide) (by decide) j hj] at hm
    exact absurd hm (by simp)
  · push_neg at hj
    interval_cases j <;> first
      | omega
      | exact absurd hm (by decide)

lemma cutLen_w0C : cutLen w0C 492 = 492 := by
  simp only [cutLen, w0C_fence_none, cutPara, w0C_para_none, cutSent, w0C_sent_none,
    cutLine, w0C_nl_some, cutSpace, w0C_sp_some]
  norm_num

lemma sectC_eq : sectC = (hdrTitle ++ ['\n']) ++ aBody := by
  simp [sectC, List.append_assoc]

lemma sectC_length : sectC.length = 2008 := by
  rw [sectC_eq, List.length_append]
  rw [show (hdrTitle ++ ['\n']).length = 8 from by decide]
  unfold aBody
  rw [List.length_replicate]

lemma sectC_drop_high {s : Nat} (hs : 8 ≤ s) :
    sectC.drop s = List.replicate (2008 - s) 'a' := by
  rw [sectC_eq, List.drop_append_eq_append_drop]
  have h8 : (hdrTitle ++ ['\n']).length = 8 := by decide
  rw [List.drop_eq_nil_of_le (by rw [h8]; omega), h8, List.nil_append]
  unfold aBody
  rw [List.drop_replicate]
  have h2 : 2000 - (s - 8) = 2008 - s := by omega
  rw [h2]

lemma sectC_take492 : sectC.take 492 = w0C := by
  rw [sectC_eq, List.take_append_eq_append_take]
  have h8 : (hdrTitle ++ ['\n']).length = 8 := by decide
  rw [List.take_of_length_le (by rw [h8]; omega), h8]
  unfold aBody
  rw [List.take_replicate]
  have hm : min (492 - 8) 2000 = 484 := by omega
  rw [hm, ← w0C_eq]

lemma sectC_window {s : Nat} (hs : 8 ≤ s) (hs2 : s ≤ 1516) :
    (sectC.drop s).take 492 = List.replicate 492 'a' := by
  rw [sectC_drop_high hs, List.take_replicate]
  have hm : min 492 (2008 - s) = 492 := by omega
  rw [hm]

lemma stripL_w0C : stripL w0C = w0C := by
  apply stripL_eq_self
  · intro c hc
    rw [show w0C.head? = some '#' from by decide] at hc
    simp only [Option.some.injEq] at hc
    subst hc
    decide
  · intro c hc
    have hlast : w0C.getLast? = some 'a' := by
      rw [show w0C = (hdrTitle ++ '\n' :: List.replicate 483 'a') ++ ['a'] from by
        rw [w0C_eq, show (484 : Nat) = 483 + 1 from rfl, List.replicate_succ']
        simp [List.append_assoc]]
      exact List.getLast?_concat _
    rw [hlast] at hc
    simp only [Option.some.injEq] at hc
    subst hc
    decide

lemma stripL_sectC : stripL sectC = sectC := by
  apply stripL_eq_self
  · intro c hc
    rw [show sectC.head? = some '#' from by decide] at hc
    simp only [Option.some.injEq] at hc
    subst hc
    decide
  · intro c hc
    have hlast : sectC.getLast? = some 'a' := by
      rw [show sectC = (hdrTitle ++ '\n' :: List.replicate 1999 'a') ++ ['a'] from by
        rw [sectC_eq]
        unfold aBody
        rw [show (2000 : Nat) = 1999 + 1 from rfl, List.replicate_succ']
        simp [List.append_assoc]]
      exact List.getLast?_concat _
    rw [hlast] at hc
    simp only [Option.some.injEq] at hc
    subst hc
    decide

lemma go_step (text : List Char) (safe fuel start : Nat) (h1 : start < text.length)
    (h2 : ¬ text.length ≤ start + safe) :
    smartSplitGo text safe (fuel + 1) start =
      match smartSplitGo text safe fuel
          (start + cutLen ((text.drop start).take safe) safe) with
      | none => none
      | some rest =>
        some ((if (midChunk text safe start).isEmpty then []
               else [midChunk text safe start]) ++ rest) := by
  simp only [smartSplitGo, if_pos h1, if_neg h2]

lemma go_last (text : List Char) (safe fuel start : Nat) (h1 : start < text.length)
    (h2 : text.length ≤ start + safe) :
    smartSplitGo text safe (fuel + 1) start =
      some (if (stripL (text.drop start)).isEmpty then []
            else [stripL (text.drop start)]) := by
  simp only [smartSplitGo, if_pos h1, if_pos h2]

lemma midChunk_sectC_pos {s : Nat} (hs : 8 ≤ s) (hs2 : s ≤ 1516) :
    midChunk sectC 492 s = List.replicate 492 'a' := by
  unfold midChunk
  rw [sectC_window hs hs2, cutLen_replicate, sectC_drop_high hs, List.take_replicate]
  have hm : min 492 (2008 - s) = 492 := by omega
  rw [hm, stripL_replicate]

lemma midChunk_sectC_zero : midChunk sectC 492 0 = w0C := by
  unfold midChunk
  rw [List.drop_zero, sectC_take492, cutLen_w0C, sectC_take492, stripL_w0C]

lemma smartSplitGo_sectC :
    smartSplitGo sectC 492 2009 0 =
      some [w0C, List.replicate 492 'a', List.replicate 492 'a', List.replicate 492 'a',
        List.replicate 40 'a'] := by
  have hlen := sectC_length
  have h5 : smartSplitGo sectC 492 2005 1968 = some [List.replicate 40 'a'] := by
    rw [show (2005 : Nat) = 2004 + 1 from rfl,
      go_last sectC 492 2004 1968 (by omega) (by omega)]
    rw [@sectC_drop_high 1968 (by norm_num)]
    rw [show (2008 - 1968 : Nat) = 40 from rfl, stripL_replicate]
    simp [show (List.replicate 40 'a').isEmpty = false from by decide]
  have h4 : smartSplitGo sectC 492 2006 1476 =
      some [List.replicate 492 'a', List.replicate 40 'a'] := by
    rw [show (2006 : Nat) = 2005 + 1 from rfl,
      go_step sectC 492 2005 1476 (by omega) (by omega)]
    rw [@sectC_window 1476 (by norm_num) (by norm_num), cutLen_replicate]
    rw [show (1476 + 492 : Nat) = 1968 from rfl, h5,
      @midChunk_sectC_pos 1476 (by norm_num) (by norm_num)]
    simp [show (List.replicate 492 'a').isEmpty = false from by decide]
  have h3 : smartSplitGo sectC 492 2007 984 =
      some [List.replicate 492 'a', List.replicate 492 'a', List.replicate 40 'a'] := by
    rw [show (2007 : Nat) = 2006 + 1 from rfl,
      go_step sectC 492 2006 984 (by omega) (by omega)]
    rw [@sectC_window 984 (by norm_num) (by norm_num), cutLen_replicate]
    rw [show (984 + 492 : Nat) = 1476 from rfl, h4,
      @midChunk_sectC_pos 984 (by norm_num) (by norm_num)]
    simp [show (List.replicate 492 'a').isEmpty = false from by decide]
  have h2 : smartSplitGo sectC 492 2008 492 =
      some [List.replicate 492 'a', List.replicate 492 'a', List.replicate 492 'a',
        List.replicate 40 'a'] := by
    rw [show (2008 : Nat) = 2007 + 1 from rfl,
      go_step sectC 492 2007 492 (by omega) (by omega)]
    rw [@sectC_window 492 (by norm_num) (by norm_num), cutLen_replicate]
    rw [show (492 + 492 : Nat) = 984 from rfl, h3,
      @midChunk_sectC_pos 492 (by norm_num) (by norm_num)]
    simp [show (List.replicate 492 'a').isEmpty = false from by decide]
  rw [show (2009 : Nat) = 2008 + 1 from rfl,
    go_step sectC 492 2008 0 (by omega) (by omega)]
  rw [List.drop_zero, sectC_take492, cutLen_w0C]
  rw [show (0 + 492 : Nat) = 492 from rfl, h2, midChunk_sectC_zero]
  simp [show w0C.isEmpty = false from by decide]

lemma processSection_sectC :
    processSection 500 sectC hdrTitle =
      some [w0C,
        headerPre hdrTitle ++ List.replicate 492 'a',
        headerPre hdrTitle ++ List.replicate 492 'a',
        headerPre hdrTitle ++ List.replicate 492 'a',
        headerPre hdrTitle ++ List.replicate 40 'a'] := by
  have hsm : smartSplit 500 sectC hdrTitle =
      some [w0C, List.replicate 492 'a', List.replicate 492 'a', List.replicate 492 'a',
        List.replicate 40 'a'] := by
    unfold smartSplit
    rw [show safeChunkSize 500 hdrTitle = 492 from by decide, sectC_length]
    rw [show (2008 + 1 : Nat) = 2009 from rfl]
    exact smartSplitGo_sectC
  unfold processSection
  rw [if_neg (show ¬ sectC.length ≤ 500 by rw [sectC_length]; norm_num)]
  rw [hsm]
  have hc492 : (!hdrTitle.isEmpty && !(hdrTitle.isPrefixOf (List.replicate 492 'a'))) =
      true := by decide
  have hc40 : (!hdrTitle.isEmpty && !(hdrTitle.isPrefixOf (List.replicate 40 'a'))) =
      true := by decide
  simp only [List.map_cons, List.map_nil]
  rw [if_pos hc492, if_pos hc40]

lemma scanLines_cons (cs : Nat) (st : ScanState) (l : List Char) (ls : List (List Char)) :
    scanLines cs st (l :: ls) =
      match scanStep cs st l with
      | none => none
      | some st2 => scanLines cs st2 ls := by
  simp only [scanLines]

lemma chunkText_of_scan {cs : Nat} {text : List Char} {st : ScanState}
    (h1 : text.isEmpty = false) (h2 : scanLines cs initScan (splitNL text) = some st) :
    chunkText cs text = finishScan cs st := by
  unfold chunkText
  rw [if_neg (by rw [h1]; simp), h2]

lemma finishScan_step {cs : Nat} {st : ScanState} {s : List Char} {out : List (List Char)}
    (hsec : stripL (joinNL st.current_section) = s)
    (hemp : s.isEmpty = false)
    (hps : processSection cs s st.current_header = some out) :
    finishScan cs st = some (st.chunks ++ out) := by
  unfold finishScan
  rw [hsec, if_neg (by rw [hemp]; simp), hps]

lemma chunkText_docC :
    chunkText 500 docC =
      some [w0C,
        headerPre hdrTitle ++ List.replicate 492 'a',
        headerPre hdrTitle ++ List.replicate 492 'a',
        headerPre hdrTitle ++ List.replicate 492 'a',
        headerPre hdrTitle ++ List.replicate 40 'a'] := by
  have hdoc : docC = hdrTitle ++ '\n' :: aBody := by
    unfold docC aBody
    rw [show ("# Title\n".toList : List Char) = hdrTitle ++ ['\n'] from by decide]
    simp [List.append_assoc]
  have hsplit2 : splitNL docC = [hdrTitle, aBody] := by
    rw [hdoc, splitNL_append_nl hdrTitle aBody (by decide),
      splitNL_of_no_nl aBody (fun x hx => by
        have hxa : x = 'a' :=
          List.eq_of_mem_replicate (show x ∈ List.replicate 2000 'a' from hx)
        rw [hxa]
        decide)]
  have hfb : isFenceLine aBody = false := by decide
  have hhb : isHeaderLine aBody = false := by decide
  have hs1 : scanStep 500 initScan hdrTitle = some ⟨[], hdrTitle, [hdrTitle], false⟩ := by
    decide
  have hs2 : scanStep 500 ⟨[], hdrTitle, [hdrTitle], false⟩ aBody =
      some ⟨[], hdrTitle, [hdrTitle, aBody], false⟩ := by
    unfold scanStep
    rw [if_neg (by rw [hfb]; simp), if_neg (by simp [hhb])]
    rfl
  have hjoin : joinNL [hdrTitle, aBody] = sectC := by
    simp [joinNL, List.intercalate, sectC]
  have hscan : scanLines 500 initScan (splitNL docC) =
      some ⟨[], hdrTitle, [hdrTitle, aBody], false⟩ := by
    rw [hsplit2]
    calc scanLines 500 initScan [hdrTitle, aBody]
        = scanLines 500 ⟨[], hdrTitle, [hdrTitle], false⟩ [aBody] := by
          rw [scanLines_cons, hs1]
      _ = scanLines 500 ⟨[], hdrTitle, [hdrTitle, aBody], false⟩ [] := by
          rw [scanLines_cons, hs2]
      _ = some ⟨[], hdrTitle, [hdrTitle, aBody], false⟩ := rfl
  have hsec : stripL (joinNL [hdrTitle, aBody]) = sectC := by
    rw [hjoin, stripL_sectC]
  have hfin : finishScan 500 (⟨[], hdrTitle, [hdrTitle, aBody], false⟩ : ScanState) =
      some (([] : List (List Char)) ++
        [w0C,
          headerPre hdrTitle ++ List.replicate 492 'a',
          headerPre hdrTitle ++ List.replicate 492 'a',
          headerPre hdrTitle ++ List.replicate 492 'a',
          headerPre hdrTitle ++ List.replicate 40 'a']) :=
    finishScan_step hsec (by decide) processSection_sectC
  rw [chunkText_of_scan (by decide) hscan, hfin]
  rfl

/-!  Claim theorems.  -/

/-- C3: when the remaining text exceeds the budget, `_smart_split` searches
the provisional window backward for, in strict priority order, a fence
delimiter, a paragraph break, a sentence terminator (cut placed after the
period), a bare newline, and a space; a cut is accepted only above 3/10 of
the budget (1/10 for the space rule), the first rule whose threshold is
met wins, and otherwise the window is cut at the full budget.  In
particular, with a fence delimiter at 40% of a 500-character budget and a
paragraph break at 60%, the fence heuristic determines the cut. -/
theorem cut_cascade_spec :
    (∀ (w : List Char) (safe : Nat), cutLen w safe = runRules specRules w safe) ∧
    cutLen scenarioEWindow 500 = 200 ∧ rfindL scenarioEWindow paraStr = some 300 := by
  refine ⟨?_, by decide, by decide⟩
  intro w safe
  exact (runRules_fence w safe).symm

/-- C6: the effective per-chunk body budget of `_smart_split` equals
`chunk_size − len(header) − 1` when a non-empty owning header exists and
`chunk_size` otherwise, and whenever that computed budget is not positive
the splitter falls back to the raw `chunk_size` instead of failing. -/
theorem budget_computation (cs : Nat) (hdr : List Char) :
    (hdr = [] → safeChunkSize cs hdr = cs) ∧
    (hdr ≠ [] →
      ((0 < (cs : Int) - hdr.length - 1 →
          (safeChunkSize cs hdr : Int) = (cs : Int) - hdr.length - 1) ∧
        ((cs : Int) - hdr.length - 1 ≤ 0 → safeChunkSize cs hdr = cs))) := by
  constructor
  · intro h
    subst h
    unfold safeChunkSize headerPre
    simp
  · intro h
    have hlen : (headerPre hdr).length = hdr.length + 1 := headerPre_length h
    unfold safeChunkSize
    rw [hlen]
    constructor
    · intro hpos
      rw [if_neg (by omega)]
      omega
    · intro hle
      rw [if_pos (by omega)]

/-- C6 witness: at `chunk_size = 10` and the 3-character header `# H`, the
budget is `10 − 3 − 1`. -/
theorem budget_computation_witness :
    (safeChunkSize 10 hdrW : Int) = (10 : Int) - (hdrW.length : Int) - 1 :=
  ((budget_computation 10 hdrW).2 (by decide)).1 (by decide)

/-- C7: while `in_code_block` is true, no line finalizes the current
section or starts a new one (a header-like line is appended instead), and
any line whose trimmed form starts with triple backticks toggles the fence
state and is appended to the current section, never treated as a header. -/
theorem fence_state_guard (cs : Nat) (st : ScanState) (line : List Char) :
    (st.in_code_block = true →
      scanStep cs st line =
        some ⟨st.chunks, st.current_header, st.current_section ++ [line],
          !(isFenceLine line)⟩) ∧
    (isFenceLine line = true →
      scanStep cs st line =
        some ⟨st.chunks, st.current_header, st.current_section ++ [line],
          !st.in_code_block⟩) := by
  constructor
  · intro hin
    unfold scanStep
    by_cases hf : isFenceLine line = true
    · rw [if_pos hf, hin, hf]
    · rw [if_neg hf, if_neg (by rw [hin]; simp), hin]
      have : isFenceLine line = false := by
        cases hfl : isFenceLine line
        · rfl
        · exact absurd hfl hf
      rw [this]
      rfl
  · intro hf
    unfold scanStep
    rw [if_pos hf]

/-- C7 witness: a header-like line arriving while inside a fenced block is
appended to the section and produces no new section. -/
theorem fence_state_guard_witness :
    scanStep 5 stW lineW =
      some ⟨stW.chunks, stW.current_header, stW.current_section ++ [lineW],
        !(isFenceLine lineW)⟩ :=
  (fence_state_guard 5 stW lineW).1 (by decide)

/-- C8: a section whose text already fits within `chunk_size` is returned
by `_process_section` as the one-element sequence containing it unchanged. -/
theorem fast_path_id (cs : Nat) (text hdr : List Char) (h : text.length ≤ cs) :
    processSection cs text hdr = some [text] := by
  unfold processSection
  rw [if_pos h]

/-- C8 witness: a 2-character section at `chunk_size = 5`. -/
theorem fast_path_id_witness : processSection 5 "ab".toList hdrW = some ["ab".toList] :=
  fast_path_id 5 "ab".toList hdrW (by decide)

/-- C5: for every section with a non-empty owning header split into more
than one sub-chunk, every emitted chunk after the first starts with the
header — the first sub-chunk is left as-is, and each later sub-chunk that
does not already start with the exact header string has the header plus a
newline prepended. -/
theorem header_propagation (cs : Nat) (text hdr : List Char) (out : List (List Char))
    (hhdr : hdr ≠ []) (hps : processSection cs text hdr = some out)
    (hn : 1 < out.length) :
    ∀ (i : Nat) (c : List Char), 1 ≤ i → out.get? i = some c → hdr <+: c := by
  by_cases hfast : text.length ≤ cs
  · rw [fast_path_id cs text hdr hfast] at hps
    simp only [Option.some.injEq] at hps
    subst hps
    simp at hn
  · obtain ⟨subs, hs, hout⟩ := processSection_inj hfast hps
    cases subs with
    | nil =>
      subst hout
      simp at hn
    | cons c0 rest =>
      subst hout
      intro i c hi hg
      obtain ⟨k, rfl⟩ : ∃ k, i = k + 1 := ⟨i - 1, by omega⟩
      rw [List.get?_cons_succ] at hg
      have hmem : c ∈ rest.map (fun ch =>
          if !hdr.isEmpty && !(hdr.isPrefixOf ch) then headerPre hdr ++ ch else ch) :=
        List.get?_mem hg
      obtain ⟨ch, hchmem, hc⟩ := List.mem_map.mp hmem
      have hne : hdr.isEmpty = false := by simpa [List.isEmpty_iff] using hhdr
      by_cases hcond : (!hdr.isEmpty && !(hdr.isPrefixOf ch)) = true
      · rw [if_pos hcond] at hc
        rw [← hc]
        unfold headerPre
        rw [hne]
        simp only [Bool.false_eq_true, if_false]
        rw [List.append_assoc]
        exact List.prefix_append hdr _
      · rw [if_neg hcond] at hc
        rw [← hc]
        cases hpc : hdr.isPrefixOf ch with
        | false =>
          refine absurd ?_ hcond
          rw [hne, hpc]
          rfl
        | true => exact List.isPrefixOf_iff_prefix.mp hpc

/-- C5 witness: the second chunk of the split of `sectW` starts with the
owning header. -/
theorem header_propagation_witness : hdrW <+: "# H\nabcde".toList :=
  header_propagation 10 sectW hdrW outW (by decide) (by decide) (by decide)
    1 "# H\nabcde".toList (by decide) (by decide)

/-- C9: for every input string and positive chunk size, `chunk_text`
terminates and returns a result: every accepted heuristic cut offset is at
least 1 and the hard cut advances by the full positive budget, so the
splitting cursor strictly increases on every iteration and the loop fuel
suffices. -/
theorem chunk_text_total (cs : Nat) (text w : List Char) (safe : Nat)
    (hcs : 0 < cs) (hsafe : 1 ≤ safe) :
    (chunkText cs text).isSome = true ∧ 1 ≤ cutLen w safe :=
  ⟨chunkText_isSome hcs text, cutLen_pos hsafe⟩

/-- C9 witness: a concrete run at `chunk_size = 1` returns a result. -/
theorem chunk_text_total_witness :
    (chunkText 1 "ab".toList).isSome = true ∧ 1 ≤ cutLen [] 1 :=
  chunk_text_total 1 "ab".toList [] 1 (by decide) (by decide)

/-- C10: when the owning header is empty or `chunk_size − len(header) − 1`
is positive, every chunk emitted for the section — header-injected
continuation chunks included — has length at most `chunk_size`. -/
theorem chunk_size_hard_bound (cs : Nat) (text hdr : List Char) (out : List (List Char))
    (hpre : hdr = [] ∨ hdr.length + 1 < cs)
    (h : processSection cs text hdr = some out) :
    ∀ c ∈ out, c.length ≤ cs := by
  by_cases hfast : text.length ≤ cs
  · rw [fast_path_id cs text hdr hfast] at h
    simp only [Option.some.injEq] at h
    subst h
    intro c hc
    simp only [List.mem_singleton] at hc
    subst hc
    exact hfast
  · obtain ⟨subs, hs, hout⟩ := processSection_inj hfast h
    have hlen := smartSplit_len_le hs
    have hsle := safeChunkSize_le cs hdr
    cases subs with
    | nil =>
      subst hout
      intro c hc
      simp at hc
    | cons c0 rest =>
      subst hout
      intro c hc
      rcases List.mem_cons.mp hc with heq | hmem
      · subst heq
        exact le_trans (hlen c (List.mem_cons_self _ _)) hsle
      · obtain ⟨ch, hchmem, hceq⟩ := List.mem_map.mp hmem
        have hchle := hlen ch (List.mem_cons_of_mem _ hchmem)
        by_cases hcond : (!hdr.isEmpty && !(hdr.isPrefixOf ch)) = true
        · rw [if_pos hcond] at hceq
          rw [← hceq]
          have hne : hdr ≠ [] := by
            intro hemp
            subst hemp
            simp at hcond
          rcases hpre with hemp | hlt
          · exact absurd hemp hne
          · have hhp : (headerPre hdr).length = hdr.length + 1 := headerPre_length hne
            have hsafe_eq : safeChunkSize cs hdr = cs - (hdr.length + 1) := by
              unfold safeChunkSize
              rw [hhp, if_neg (by omega)]
            rw [List.length_append, hhp]
            rw [hsafe_eq] at hchle
            omega
        · rw [if_neg hcond] at hceq
          rw [← hceq]
          exact le_trans hchle hsle

/-- C10 witness: a header-injected continuation chunk of `sectW` at
`chunk_size = 10` stays within the size bound. -/
theorem chunk_size_hard_bound_witness : ("# H\nabcde".toList).length ≤ 10 :=
  chunk_size_hard_bound 10 sectW hdrW outW (Or.inr (by decide)) (by decide)
    "# H\nabcde".toList (by decide)

/-- C2 counterexample: on a balanced-fence input whose first window holds
a complete fenced block, the first emitted chunk keeps the opening
delimiter while the closing delimiter is deferred, so a single chunk
contains an odd number of triple-backtick delimiters even though the
input's delimiters are balanced. -/
theorem fence_integrity_counterexample :
    chunkText 20 cexText = some [chunkA, chunkB] ∧
    (occIdx chunkA fenceStr).length = 1 ∧ (occIdx cexText fenceStr).length = 2 := by
  decide

/-- C2 (amended): when the fence rule fires, the cut is placed immediately
before the last fence-delimiter occurrence in the window — that delimiter
and everything after it are deferred to the next chunk; a window holding
both delimiters of a fence therefore cuts before the closing one, keeping
the opening delimiter in the emitted chunk, so fence integrity does not
hold for all inputs. -/
theorem fence_cut_before_delimiter (w : List Char) (safe i : Nat)
    (hr : rfindL w fenceStr = some i) (ht : 10 * i > 3 * safe) :
    cutLen w safe = i ∧ matchAt w fenceStr i = true ∧
      ∀ j, matchAt w fenceStr j = true → j ≤ i := by
  refine ⟨?_, rfindL_matchAt (by decide) hr, rfindL_max (by decide) hr⟩
  simp only [cutLen, hr, if_pos ht]

/-- C2 witness: in the first window of `cexText` the accepted fence cut is
at offset 12, the position of the closing delimiter. -/
theorem fence_cut_before_delimiter_witness :
    cutLen cexWindow 20 = 12 ∧ matchAt cexWindow fenceStr 12 = true :=
  ⟨(fence_cut_before_delimiter cexWindow 20 12 (by decide) (by decide)).1,
   (fence_cut_before_delimiter cexWindow 20 12 (by decide) (by decide)).2.1⟩

/-- C4 counterexample: a 7-character header plus 2000 break-free
characters at `chunk_size = 500` yields five chunks, not four — header
injection shrinks the per-chunk body budget to 492, and
`⌈2008 / 492⌉ = 5`. -/
theorem scenarioC_not_four_chunks :
    Option.map List.length (chunkText 500 docC) = some 5 ∧
    Option.map List.length (chunkText 500 docC) ≠ some 4 := by
  have h : Option.map List.length (chunkText 500 docC) = some 5 := by
    rw [chunkText_docC]
    rfl
  refine ⟨h, ?_⟩
  rw [h]
  decide

/-- C4 (amended): that document yields exactly five chunks, and chunks 2
through 5 each begin with the header text. -/
theorem scenarioC_chunk_count :
    Option.map List.length (chunkText 500 docC) = some 5 ∧
    (((chunkText 500 docC).getD []).drop 1).all (fun c => hdrTitle.isPrefixOf c) = true := by
  rw [chunkText_docC]
  constructor
  · rfl
  · decide

/-- C1 counterexample: `extract_code_blocks` applied to a document that is
exactly one fenced block returns no records — the start offset skips the
opening delimiter, leaving a single unpaired delimiter. -/
theorem extract_scenarioD_empty : extractCodeBlocks scenarioD 1 = [] := by decide

/-- C1 (amended): the recorded delimiter positions are strictly
increasing, each is a real delimiter occurrence at or after the start
offset (3 when the stripped document itself starts with the delimiter —
skipping the opening one — else 0), and consecutive pairing yields at most
half as many records as positions; on the Scenario D input the opening
delimiter is skipped, so the result is empty. -/
theorem extract_records_offsets :
    (∀ (md : List Char) (minLen : Nat),
        (backtickPositions md).Pairwise (· < ·) ∧
        (∀ p, p ∈ backtickPositions md →
          startOffset md ≤ p ∧ matchAt md fenceStr p = true) ∧
        (extractCodeBlocks md minLen).length ≤ (backtickPositions md).length / 2) ∧
    extractCodeBlocks scenarioD 1 = [] := by
  refine ⟨?_, by decide⟩
  intro md minLen
  refine ⟨greedyPick_pairwise _ (occAux_pairwise fenceStr md 0) _, ?_, ?_⟩
  · intro p hp
    obtain ⟨hmem, hlo⟩ := greedyPick_sub _ _ p hp
    exact ⟨hlo, (mem_occIdx (by decide) p).mp hmem⟩
  · calc (extractCodeBlocks md minLen).length
        ≤ (pairUp (backtickPositions md)).length := List.length_filterMap_le _ _
      _ = (backtickPositions md).length / 2 := pairUp_length _

/-- C1 witness: position 1 of the document `a```b```c` is a recorded
occurrence at or after its start offset. -/
theorem extract_records_offsets_witness :
    startOffset mdW ≤ 1 ∧ matchAt mdW fenceStr 1 = true :=
  ((extract_records_offsets.1 mdW 0).2.1) 1 (by decide)

end Chunking
